import Mathlib

/-!
Verification of the consensus-sequence core of mgnify-pipelines-toolkit
(file src/mgnify_pipelines_toolkit/analysis/amplicon/amplicon_utils.py).

The Python data structures are embedded shallowly:
* a Python dict is an insertion-ordered association list with unique keys;
  assignment (`d[k] = v`) updates an existing entry in place, otherwise appends;
  `defaultdict(int)` accumulation (`d[k] += c`) adds to an existing entry,
  otherwise appends `(k, c)`;
* strings are lists of characters;
* floats are rationals (ℚ);
* a function that can raise an uncaught Python exception returns `PyResult`.
-/

attribute [local semireducible] Rat.add

/-- Errors that the embedded Python functions can raise uncaught. -/
inductive PyErr where
  | zeroDivisionError : PyErr
  | keyError : List Char → PyErr
  | exitError : PyErr
deriving DecidableEq, Repr

/-- Result of running an embedded Python function: normal return or uncaught error. -/
inductive PyResult (α : Type) where
  | ok : α → PyResult α
  | error : PyErr → PyResult α
deriving DecidableEq, Repr

/-- Python float division of two non-negative integer counts, `a / b`, embedded
as exact rational division.  Every use in this development is guarded so that
`b` is non-zero wherever the Python source actually divides (a zero denominator
in Python raises `ZeroDivisionError`, which the embedding signals explicitly
before calling `frac`). -/
def frac (a b : ℕ) : ℚ := Rat.divInt a b

/-- Python dict assignment `d[k] = v`: replace the value of an existing key in
place, otherwise append the new binding at the end (insertion order). -/
def dictAssign {α β : Type} [DecidableEq α] : List (α × β) → α → β → List (α × β)
  | [], k, v => [(k, v)]
  | (k₀, v₀) :: rest, k, v =>
    if k₀ = k then (k, v) :: rest else (k₀, v₀) :: dictAssign rest k v

/-- Python `defaultdict(int)` accumulation `d[k] += c`: add to the value of an
existing key in place, otherwise append `(k, c)` at the end. -/
def dictAdd {α : Type} [DecidableEq α] : List (α × ℕ) → α → ℕ → List (α × ℕ)
  | [], k, c => [(k, c)]
  | (k₀, c₀) :: rest, k, c =>
    if k₀ = k then (k₀, c₀ + c) :: rest else (k₀, c₀) :: dictAdd rest k c

/-- Sum of the values of a count dictionary. -/
def dictTotal {α : Type} (d : List (α × ℕ)) : ℕ := (d.map Prod.snd).sum

/-- Stable insertion before the first element whose key is not larger,
used to model Python `sorted(..., key=..., reverse=True)`. -/
def insertByDesc {α β : Type} [LinearOrder β] (key : α → β) (x : α) :
    List α → List α
  | [] => [x]
  | y :: rest => if key y ≤ key x then x :: y :: rest else y :: insertByDesc key x rest

/-- Stable sort by descending key, modelling Python
`sorted(..., key=..., reverse=True)` (a stable sort keeping the original
relative order of elements with equal keys). -/
def sortByDesc {α β : Type} [LinearOrder β] (key : α → β) : List α → List α
  | [] => []
  | x :: rest => insertByDesc key x (sortByDesc key rest)

/-- Stable insertion for ascending character sort, modelling Python `sorted`
on a list of single characters. -/
def insertAsc (x : Char) : List Char → List Char
  | [] => [x]
  | y :: rest => if x ≤ y then x :: y :: rest else y :: insertAsc x rest

/-- Python `sorted` on a list of characters (ascending by code point). -/
def sortAsc : List Char → List Char
  | [] => []
  | x :: rest => insertAsc x (sortAsc rest)

/-- Python `",".join` on a list of single characters. -/
def joinComma : List Char → List Char
  | [] => []
  | [b] => [b]
  | b :: rest => b :: ',' :: joinComma rest

/-- Modelled from the spec: the IUPAC ambiguity registry
`_AMBIGUOUS_BASES_DICT_REV` imported from
`mgnify_pipelines_toolkit.constants.regex_ambiguous_bases` (that module is not
part of the given sources).  Per the spec it is a fixed bidirectional mapping
between a single ambiguity symbol and the alphabetically sorted, comma-joined
list of concrete bases it represents (for example `R` for `A,G`), complete over
all non-empty subsets of size at least 2 of the set A, C, G, T, plus the four
singletons. -/
def ambiguousBasesDictRev : List (List Char × Char) :=
  [(['A'], 'A'), (['C'], 'C'), (['G'], 'G'), (['T'], 'T'),
   (['A', ',', 'C'], 'M'), (['A', ',', 'G'], 'R'), (['A', ',', 'T'], 'W'),
   (['C', ',', 'G'], 'S'), (['C', ',', 'T'], 'Y'), (['G', ',', 'T'], 'K'),
   (['A', ',', 'C', ',', 'G'], 'V'), (['A', ',', 'C', ',', 'T'], 'H'),
   (['A', ',', 'G', ',', 'T'], 'D'), (['C', ',', 'G', ',', 'T'], 'B'),
   (['A', ',', 'C', ',', 'G', ',', 'T'], 'N')]

/-- Registry lookup `_AMBIGUOUS_BASES_DICT_REV[amb_string]`; `none` models an
uncaught `KeyError`. -/
def lookupRev (k : List Char) : Option Char :=
  (ambiguousBasesDictRev.find? (fun p => p.1 = k)).map Prod.snd

/-- The greedy accumulation loop of `build_cons_seq` (lines 139 to 143 of
amplicon_utils.py): append bases of the descending-sorted conservation
dictionary, summing their proportions, and stop as soon as the running sum
reaches or exceeds the threshold. -/
def greedyAccum (cons_threshold : ℚ) : List (Char × ℚ) → ℚ → List Char
  | [], _ => []
  | (base, prop) :: rest, curr_prop =>
    if cons_threshold ≤ curr_prop + prop then [base]
    else base :: greedyAccum cons_threshold rest (curr_prop + prop)

/-- Candidate base selection of `build_cons_seq` (lines 133 to 143 of
amplicon_utils.py): sort the conservation dictionary by proportion descending
(Python `sorted(cons_dict.items(), key=lambda x: x[1], reverse=True)`), then
greedily accumulate until the threshold is met. -/
def consBasesOf (cons_dict : List (Char × ℚ)) (cons_threshold : ℚ) : List Char :=
  greedyAccum cons_threshold (sortByDesc Prod.snd cons_dict) 0

/-- The denominator used for the per-base proportions of `build_cons_seq`:
`read_count` when no override is supplied, else the `max_line_count`
override. -/
def pyDenom (read_count : ℕ) (max_line_count : Option ℕ) : ℕ :=
  match max_line_count with
  | none => read_count
  | some d => d

/-- The per-base loop of `build_cons_seq` (lines 116 to 126 of
amplicon_utils.py): skip symbols other than A, T, C, G; set
`cons_dict[base] = count / read_count` (or `count / max_line_count` when the
override is supplied) — a division whose denominator is zero raises an
uncaught `ZeroDivisionError`, since this loop is outside the try block —
and track the maximum raw count. -/
def consPropsLoop : List (Char × ℕ) → List (Char × ℚ) → ℕ → ℕ → Option ℕ →
    PyResult (List (Char × ℚ) × ℕ)
  | [], cons_dict, max_count, _, _ => .ok (cons_dict, max_count)
  | (base, count) :: rest, cons_dict, max_count, read_count, max_line_count =>
    if base ∈ (['A', 'T', 'C', 'G'] : List Char) then
      if pyDenom read_count max_line_count = 0 then .error .zeroDivisionError
      else
        consPropsLoop rest
          (dictAssign cons_dict base (frac count (pyDenom read_count max_line_count)))
          (if max_count < count then count else max_count) read_count max_line_count
    else consPropsLoop rest cons_dict max_count read_count max_line_count

/-- The try block of `build_cons_seq` (lines 130 to 155 of amplicon_utils.py):
`max_prop = max_count / read_count` (always divided by `read_count`, never by
the override) — when `read_count` is zero the `ZeroDivisionError` is caught by
the except clause, which sets `max_prop = 0.0` and skips the symbol emission —
then select the candidate bases, sort them alphabetically, and emit either the
single base or the registry entry for the comma-joined base combination; a
missing registry entry is an uncaught `KeyError`.  Returns the optional symbol
appended to the consensus and the confidence value appended for the
position. -/
def consTryBlock (cons_dict : List (Char × ℚ)) (max_count read_count : ℕ)
    (cons_threshold : ℚ) : PyResult (Option Char × ℚ) :=
  if read_count = 0 then .ok (none, 0)
  else
    match sortAsc (consBasesOf cons_dict cons_threshold) with
    | [b] => .ok (some b, frac max_count read_count)
    | bs =>
      match lookupRev (joinComma bs) with
      | some amb_base => .ok (some amb_base, frac max_count read_count)
      | none => .error (.keyError (joinComma bs))

/-- The position loop of `build_cons_seq` (lines 107 to 157 of
amplicon_utils.py), carrying the consensus string and confidence list built so
far.  A position whose (1-based) counter is in `do_not_include` emits `N` and
appends no confidence entry; every other position runs the per-base loop and
the try block, appending the emitted symbol (if any) and the confidence. -/
def buildConsSeqLoop : List (List (Char × ℕ)) → ℕ → ℚ → List ℕ → ℕ → Option ℕ →
    List Char → List ℚ → PyResult (List Char × List ℚ)
  | [], _, _, _, _, _, cons_seq, cons_confs => .ok (cons_seq, cons_confs)
  | count_dict :: rest, read_count, cons_threshold, do_not_include, counter,
      max_line_count, cons_seq, cons_confs =>
    if counter ∈ do_not_include then
      buildConsSeqLoop rest read_count cons_threshold do_not_include (counter + 1)
        max_line_count (cons_seq ++ ['N']) cons_confs
    else
      match consPropsLoop count_dict [] 0 read_count max_line_count with
      | .error e => .error e
      | .ok (cons_dict, max_count) =>
        match consTryBlock cons_dict max_count read_count cons_threshold with
        | .error e => .error e
        | .ok (sym, max_prop) =>
          buildConsSeqLoop rest read_count cons_threshold do_not_include (counter + 1)
            max_line_count
            (match sym with
             | some b => cons_seq ++ [b]
             | none => cons_seq)
            (cons_confs ++ [max_prop])

/-- `build_cons_seq` (lines 86 to 159 of amplicon_utils.py): generate the
consensus sequence and the list of per-position confidences from a list of
base conservation dictionaries.  In the source `do_not_include` defaults to
`None` (meaning the empty list), `counter` defaults to 1 and `max_line_count`
defaults to `None`. -/
def build_cons_seq (cons_list : List (List (Char × ℕ))) (read_count : ℕ)
    (cons_threshold : ℚ) (do_not_include : List ℕ) (counter : ℕ)
    (max_line_count : Option ℕ) : PyResult (List Char × List ℚ) :=
  buildConsSeqLoop cons_list read_count cons_threshold do_not_include counter
    max_line_count [] []

/-- `build_mcp_cons_dict_list` (lines 182 to 199 of amplicon_utils.py):
for every position `i` below `mcp_len`, accumulate, over the windows of the
frequency table whose length is at least `mcp_len`, the window count into the
per-symbol accumulator of the symbol at offset `i` (the `getD` default is
never used: a qualifying window has length at least `mcp_len > i`). -/
def build_mcp_cons_dict_list (mcp_count_dict : List (List Char × ℕ))
    (mcp_len : ℕ) : List (List (Char × ℕ)) :=
  (List.range mcp_len).map (fun i =>
    mcp_count_dict.foldl
      (fun acc p =>
        if p.1.length < mcp_len then acc
        else dictAdd acc (p.1.getD i ' ') p.2)
      [])

/-- Python `str.strip()` whitespace test for the characters relevant here. -/
def isSpaceChar (c : Char) : Bool :=
  c = ' ' ∨ c = '\t' ∨ c = '\n' ∨ c = '\r'

/-- Python `str.strip()`: drop leading and trailing whitespace. -/
def stripChars (l : List Char) : List Char :=
  ((l.dropWhile isSpaceChar).reverse.dropWhile isSpaceChar).reverse

/-- Python slice `l[a:b]` for `0 ≤ a ≤ b` (clamped at the end of the list). -/
def pySlice (l : List Char) (a b : ℕ) : List Char := (l.take b).drop a

/-- The window taken from one sequence line by `fetch_mcp` (lines 213 to 218 of
amplicon_utils.py): strip the line, reverse it when `rev` is set, and slice
`[start - 1 : start + prefix_len - 1]` (the source is called with
`start ≥ 1`). -/
def mcpWindow (line : List Char) (prefix_len start : ℕ) (rev : Bool) :
    List Char :=
  if rev then pySlice (stripChars line).reverse (start - 1) (start + prefix_len - 1)
  else pySlice (stripChars line) (start - 1) (start + prefix_len - 1)

/-- The enumeration loop of `fetch_mcp` (lines 211 to 221 of
amplicon_utils.py): for every line whose 0-based index is congruent to
1 modulo 4 append the extracted window, and after every line, when a cap is
supplied, break as soon as the number of accumulated windows exceeds it. -/
def fetchLoop : List (List Char) → ℕ → List (List Char) → ℕ → ℕ → Bool →
    Option ℕ → List (List Char)
  | [], _, selected_lines, _, _, _, _ => selected_lines
  | line :: rest, i, selected_lines, prefix_len, start, rev, max_line_count =>
    let selected :=
      if i % 4 = 1 then selected_lines ++ [mcpWindow line prefix_len start rev]
      else selected_lines
    match max_line_count with
    | some m =>
      if m < selected.length then selected
      else fetchLoop rest (i + 1) selected prefix_len start rev max_line_count
    | none => fetchLoop rest (i + 1) selected prefix_len start rev max_line_count

/-- Python `collections.Counter` over a list: a count dictionary keyed in
first-occurrence order. -/
def counterOf (l : List (List Char)) : List (List Char × ℕ) :=
  l.foldl (fun acc s => dictAdd acc s 1) []

/-- `fetch_mcp` (lines 202 to 228 of amplicon_utils.py), with the input file
modelled as its list of lines: extract the windows, count them with `Counter`,
and return the counts sorted by descending count
(`sorted(sequence_counts.items(), key=lambda x: x[1], reverse=True)`). -/
def fetch_mcp (lines : List (List Char)) (prefix_len start : ℕ) (rev : Bool)
    (max_line_count : Option ℕ) : List (List Char × ℕ) :=
  sortByDesc Prod.snd (counterOf (fetchLoop lines 0 [] prefix_len start rev max_line_count))

/-- Number of lines of the file whose 0-based index (starting at `i`) is
congruent to 1 modulo 4: the sequence lines of a 4-line-per-record file. -/
def countSeqIdx : ℕ → List (List Char) → ℕ
  | _, [] => 0
  | i, _ :: rest => (if i % 4 = 1 then 1 else 0) + countSeqIdx (i + 1) rest

/-- Python `str.isdigit` restricted to ASCII digits: non-empty and all
digits. -/
def pyIsDigit (s : List Char) : Bool := !s.isEmpty && s.all Char.isDigit

/-- Value of Python `int()` on a digit string. -/
def digitsToNat (l : List Char) : ℕ :=
  l.foldl (fun n c => 10 * n + (c.toNat - '0'.toNat)) 0

/-- `get_read_count` (lines 46 to 83 of amplicon_utils.py), with the output of
the external counting pipeline (`zcat | wc -l` for fastq, `grep -c` for fasta)
modelled as the `stdout` argument: strip it, exit with an error when it is not
a digit string, convert it to an integer, and for fastq divide it by 4 with
Python true division (`read_count /= 4`), an exact, possibly non-integral,
division. -/
def get_read_count (stdout : List Char) (ty : List Char) : PyResult ℚ :=
  let read_cnt := stripChars stdout
  if pyIsDigit read_cnt = false then .error .exitError
  else
    let n : ℕ := digitsToNat read_cnt
    if ty = ['f', 'a', 's', 't', 'q'] then .ok (frac n 4)
    else .ok ((n : ℚ))

/-- Number of positions of the conservation table that the position loop of
`build_cons_seq` forces to the gap symbol, when the 1-based counter starts at
`counter`. -/
def countGaps : List (List (Char × ℕ)) → List ℕ → ℕ → ℕ
  | [], _, _ => 0
  | _ :: rest, do_not_include, counter =>
    (if counter ∈ do_not_include then 1 else 0) + countGaps rest do_not_include (counter + 1)

/-! ### Helper lemmas -/

theorem frac_eq_div (a b : ℕ) : frac a b = (a : ℚ) / (b : ℚ) := by
  simp [frac, Rat.divInt_eq_div]

theorem dictAdd_total {α : Type} [DecidableEq α] (d : List (α × ℕ)) (k : α) (c : ℕ) :
    dictTotal (dictAdd d k c) = dictTotal d + c := by
  induction d with
  | nil => simp [dictAdd, dictTotal]
  | cons p rest ih =>
    obtain ⟨k₀, c₀⟩ := p
    by_cases h : k₀ = k
    · simp [dictAdd, h, dictTotal]
      omega
    · simp only [dictAdd, if_neg h, dictTotal, List.map_cons, List.sum_cons] at ih ⊢
      omega

theorem dictAssign_mem {α β : Type} [DecidableEq α] (d : List (α × β)) (k : α) (v : β)
    (p : α × β) (hp : p ∈ dictAssign d k v) : p = (k, v) ∨ p ∈ d := by
  induction d with
  | nil => simpa [dictAssign] using hp
  | cons q rest ih =>
    obtain ⟨k₀, v₀⟩ := q
    by_cases h : k₀ = k
    · simp only [dictAssign, if_pos h] at hp
      rcases List.mem_cons.1 hp with h1 | h1
      · exact Or.inl h1
      · exact Or.inr (List.mem_cons.2 (Or.inr h1))
    · simp only [dictAssign, if_neg h] at hp
      rcases List.mem_cons.1 hp with h1 | h1
      · exact Or.inr (List.mem_cons.2 (Or.inl h1))
      · rcases ih h1 with h2 | h2
        · exact Or.inl h2
        · exact Or.inr (List.mem_cons.2 (Or.inr h2))

theorem insertByDesc_perm {α β : Type} [LinearOrder β] (key : α → β) (x : α)
    (l : List α) : (insertByDesc key x l).Perm (x :: l) := by
  induction l with
  | nil => simp [insertByDesc]
  | cons y rest ih =>
    by_cases h : key y ≤ key x
    · simp [insertByDesc, h]
    · simp only [insertByDesc, if_neg h]
      exact (ih.cons y).trans (List.Perm.swap x y rest)

theorem sortByDesc_perm {α β : Type} [LinearOrder β] (key : α → β) (l : List α) :
    (sortByDesc key l).Perm l := by
  induction l with
  | nil => simp [sortByDesc]
  | cons x rest ih =>
    exact (insertByDesc_perm key x (sortByDesc key rest)).trans (ih.cons x)

theorem insertByDesc_pairwise {α β : Type} [LinearOrder β] (key : α → β) (x : α)
    (l : List α) (hl : l.Pairwise (fun a b => key b ≤ key a)) :
    (insertByDesc key x l).Pairwise (fun a b => key b ≤ key a) := by
  induction l with
  | nil => simp [insertByDesc]
  | cons y rest ih =>
    rcases List.pairwise_cons.1 hl with ⟨hy, hrest⟩
    by_cases h : key y ≤ key x
    · simp only [insertByDesc, if_pos h]
      refine List.pairwise_cons.2 ⟨?_, hl⟩
      intro z hz
      rcases List.mem_cons.1 hz with rfl | hz
      · exact h
      · exact le_trans (hy z hz) h
    · simp only [insertByDesc, if_neg h]
      refine List.pairwise_cons.2 ⟨?_, ih hrest⟩
      intro z hz
      rcases List.mem_cons.1 ((insertByDesc_perm key x rest).mem_iff.1 hz) with hz | hz
      · exact hz ▸ le_of_lt (lt_of_not_le h)
      · exact hy z hz

theorem sortByDesc_pairwise {α β : Type} [LinearOrder β] (key : α → β) (l : List α) :
    (sortByDesc key l).Pairwise (fun a b => key b ≤ key a) := by
  induction l with
  | nil => simp [sortByDesc]
  | cons x rest ih => exact insertByDesc_pairwise key x (sortByDesc key rest) ih

theorem greedyAccum_spec (t : ℚ) (l : List (Char × ℚ)) (acc : ℚ) (hacc : acc < t) :
    ∃ k, k ≤ l.length ∧
      greedyAccum t l acc = (l.map Prod.fst).take k ∧
      (∀ j, j < k → acc + ((l.map Prod.snd).take j).sum < t) ∧
      (t ≤ acc + ((l.map Prod.snd).take k).sum ∨ k = l.length) := by
  induction l generalizing acc with
  | nil =>
    refine ⟨0, le_refl 0, by simp [greedyAccum], ?_, Or.inr rfl⟩
    intro j hj
    omega
  | cons bp rest ih =>
    obtain ⟨b, p⟩ := bp
    by_cases h : t ≤ acc + p
    · refine ⟨1, by simp, by simp [greedyAccum, h], ?_, Or.inl (by simpa using h)⟩
      intro j hj
      interval_cases j
      simpa using hacc
    · obtain ⟨k, hk, hg, hlt, hend⟩ := ih (acc + p) (lt_of_not_le h)
      refine ⟨k + 1, by simpa using hk, ?_, ?_, ?_⟩
      · simpa [greedyAccum, h, List.take_succ_cons] using hg
      · intro j hj
        match j with
        | 0 => simpa using hacc
        | j' + 1 =>
          have := hlt j' (by omega)
          simpa [List.take_succ_cons, add_assoc] using this
      · rcases hend with h1 | h1
        · exact Or.inl (by simpa [List.take_succ_cons, add_assoc] using h1)
        · exact Or.inr (by simp [h1])

theorem greedyAccum_mono (t₁ t₂ : ℚ) (ht : t₁ ≤ t₂) (l : List (Char × ℚ))
    (acc : ℚ) (b : Char) (hb : b ∈ greedyAccum t₁ l acc) :
    b ∈ greedyAccum t₂ l acc := by
  induction l generalizing acc with
  | nil => simp [greedyAccum] at hb
  | cons bp rest ih =>
    obtain ⟨b₀, p⟩ := bp
    by_cases h₁ : t₁ ≤ acc + p
    · simp only [greedyAccum, if_pos h₁, List.mem_singleton] at hb
      subst hb
      by_cases h₂ : t₂ ≤ acc + p
      · simp [greedyAccum, h₂]
      · simp [greedyAccum, h₂]
    · have h₂ : ¬ t₂ ≤ acc + p := fun hh => h₁ (le_trans ht hh)
      simp only [greedyAccum, if_neg h₁, List.mem_cons] at hb
      simp only [greedyAccum, if_neg h₂, List.mem_cons]
      rcases hb with hb | hb
      · exact Or.inl hb
      · exact Or.inr (ih (acc + p) hb)

theorem consPropsLoop_ok (l : List (Char × ℕ)) (acc : List (Char × ℚ))
    (m read_count : ℕ) (max_line_count : Option ℕ)
    (hd : pyDenom read_count max_line_count ≠ 0) :
    ∃ cd mc, consPropsLoop l acc m read_count max_line_count = .ok (cd, mc) := by
  induction l generalizing acc m with
  | nil => exact ⟨acc, m, rfl⟩
  | cons p rest ih =>
    obtain ⟨base, count⟩ := p
    by_cases hb : base ∈ (['A', 'T', 'C', 'G'] : List Char)
    · simpa [consPropsLoop, hb, hd] using ih _ _
    · simpa [consPropsLoop, hb] using ih acc m

theorem consPropsLoop_skip (l : List (Char × ℕ)) (acc : List (Char × ℚ))
    (m read_count : ℕ) (max_line_count : Option ℕ)
    (h : ∀ p ∈ l, p.1 ∉ (['A', 'T', 'C', 'G'] : List Char)) :
    consPropsLoop l acc m read_count max_line_count = .ok (acc, m) := by
  induction l with
  | nil => rfl
  | cons p rest ih =>
    obtain ⟨base, count⟩ := p
    have hb : base ∉ (['A', 'T', 'C', 'G'] : List Char) :=
      h (base, count) (List.mem_cons_self _ _)
    simp only [consPropsLoop, if_neg hb]
    exact ih (fun q hq => h q (List.mem_cons_of_mem _ hq))

theorem consPropsLoop_mem (l₀ : List (Char × ℕ)) (read_count : ℕ)
    (max_line_count : Option ℕ) :
    ∀ (l : List (Char × ℕ)) (acc : List (Char × ℚ)) (m : ℕ),
      l ⊆ l₀ →
      (∀ b q, (b, q) ∈ acc →
        ∃ cnt, (b, cnt) ∈ l₀ ∧ q = frac cnt (pyDenom read_count max_line_count)) →
      ∀ cd mc, consPropsLoop l acc m read_count max_line_count = .ok (cd, mc) →
      ∀ b q, (b, q) ∈ cd →
        ∃ cnt, (b, cnt) ∈ l₀ ∧ q = frac cnt (pyDenom read_count max_line_count) := by
  intro l
  induction l with
  | nil =>
    intro acc m hsub hacc cd mc heq
    simp only [consPropsLoop, PyResult.ok.injEq, Prod.mk.injEq] at heq
    exact heq.1 ▸ hacc
  | cons p rest ih =>
    intro acc m hsub hacc cd mc heq
    obtain ⟨base, count⟩ := p
    by_cases hb : base ∈ (['A', 'T', 'C', 'G'] : List Char)
    · by_cases hd : pyDenom read_count max_line_count = 0
      · simp [consPropsLoop, hb, hd] at heq
      · simp only [consPropsLoop, if_pos hb, if_neg hd] at heq
        refine ih _ _ (fun q hq => hsub (List.mem_cons_of_mem _ hq)) ?_ cd mc heq
        intro b q hq
        rcases dictAssign_mem acc base (frac count (pyDenom read_count max_line_count))
          (b, q) hq with h1 | h1
        · rw [Prod.mk.injEq] at h1
          obtain ⟨rfl, rfl⟩ := h1
          exact ⟨count, hsub (List.mem_cons_self _ _), rfl⟩
        · exact hacc b q h1
    · simp only [consPropsLoop, if_neg hb] at heq
      exact ih _ _ (fun q hq => hsub (List.mem_cons_of_mem _ hq)) hacc cd mc heq

theorem consTryBlock_zero (cd : List (Char × ℚ)) (mc : ℕ) (t : ℚ) :
    consTryBlock cd mc 0 t = .ok (none, 0) := rfl

theorem lookupRev_nil : lookupRev [] = none := rfl

theorem consTryBlock_ok (cd : List (Char × ℚ)) (mc read_count : ℕ) (t : ℚ)
    (hrc : read_count ≠ 0) (o : Option Char) (p : ℚ)
    (heq : consTryBlock cd mc read_count t = .ok (o, p)) :
    (∃ b, o = some b) ∧ p = frac mc read_count := by
  unfold consTryBlock at heq
  rw [if_neg hrc] at heq
  rcases hsort : sortAsc (consBasesOf cd t) with _ | ⟨b, bs⟩
  · simp only [hsort, lookupRev_nil, joinComma] at heq
    cases heq
  · rcases bs with _ | ⟨b₂, bs₂⟩
    · simp only [hsort, PyResult.ok.injEq, Prod.mk.injEq] at heq
      exact ⟨⟨b, heq.1.symm⟩, heq.2.symm⟩
    · rcases hlook : lookupRev (joinComma (b :: b₂ :: bs₂)) with _ | amb
      · simp only [hsort, hlook] at heq
        cases heq
      · simp only [hsort, hlook, PyResult.ok.injEq, Prod.mk.injEq] at heq
        exact ⟨⟨amb, heq.1.symm⟩, heq.2.symm⟩

theorem consTryBlock_empty_keyError (mc read_count : ℕ) (t : ℚ)
    (hrc : read_count ≠ 0) :
    consTryBlock [] mc read_count t = .error (.keyError []) := by
  unfold consTryBlock
  rw [if_neg hrc]
  rfl

theorem countGaps_le (l : List (List (Char × ℕ))) (dni : List ℕ) (c : ℕ) :
    countGaps l dni c ≤ l.length := by
  induction l generalizing c with
  | nil => simp [countGaps]
  | cons d rest ih =>
    simp only [countGaps, List.length_cons]
    have := ih (c + 1)
    by_cases hc : c ∈ dni <;> simp [hc] <;> omega

theorem buildConsSeqLoop_zero_read_count (t : ℚ) (dni : List ℕ) (d : ℕ) (hd : d ≠ 0) :
    ∀ (cons_list : List (List (Char × ℕ))) (c : ℕ) (seq : List Char) (confs : List ℚ),
      buildConsSeqLoop cons_list 0 t dni c (some d) seq confs =
        .ok (seq ++ List.replicate (countGaps cons_list dni c) 'N',
             confs ++ List.replicate (cons_list.length - countGaps cons_list dni c) 0) := by
  intro cons_list
  induction cons_list with
  | nil =>
    intro c seq confs
    simp [buildConsSeqLoop, countGaps]
  | cons cdict rest ih =>
    intro c seq confs
    by_cases hc : c ∈ dni
    · have hg : countGaps (cdict :: rest) dni c = 1 + countGaps rest dni (c + 1) := by
        simp [countGaps, hc]
      simp only [buildConsSeqLoop, if_pos hc, ih, hg, List.length_cons]
      congr 1
      rw [Prod.mk.injEq]
      constructor
      · rw [List.append_assoc, List.replicate_add]
        rfl
      · have hle := countGaps_le rest dni (c + 1)
        have : rest.length + 1 - (1 + countGaps rest dni (c + 1)) =
            rest.length - countGaps rest dni (c + 1) := by omega
        rw [this]
    · have hg : countGaps (cdict :: rest) dni c = countGaps rest dni (c + 1) := by
        simp [countGaps, hc]
      obtain ⟨cd, mc, hok⟩ := consPropsLoop_ok cdict [] 0 0 (some d) (by simpa [pyDenom] using hd)
      simp only [buildConsSeqLoop, if_neg hc, hok, consTryBlock_zero, ih, hg, List.length_cons]
      congr 1
      rw [Prod.mk.injEq]
      constructor
      · rfl
      · have hle := countGaps_le rest dni (c + 1)
        have : rest.length + 1 - countGaps rest dni (c + 1) =
            1 + (rest.length - countGaps rest dni (c + 1)) := by omega
        rw [this, List.replicate_add, List.append_assoc]
        rfl

theorem buildConsSeqLoop_shape (read_count : ℕ) (t : ℚ) (dni : List ℕ)
    (ml : Option ℕ) (hrc : read_count ≠ 0) :
    ∀ (cons_list : List (List (Char × ℕ))) (c : ℕ) (seq : List Char) (confs : List ℚ)
      (s : List Char) (cf : List ℚ),
      buildConsSeqLoop cons_list read_count t dni c ml seq confs = .ok (s, cf) →
      ∃ tail, s = seq ++ tail ∧ tail.length = cons_list.length ∧
        ∀ i, i < cons_list.length → (c + i) ∈ dni → tail.getD i ' ' = 'N' := by
  intro cons_list
  induction cons_list with
  | nil =>
    intro c seq confs s cf heq
    simp only [buildConsSeqLoop, PyResult.ok.injEq, Prod.mk.injEq] at heq
    refine ⟨[], ?_, rfl, ?_⟩
    · rw [List.append_nil]
      exact heq.1.symm
    · intro i hi
      simp at hi
  | cons cdict rest ih =>
    intro c seq confs s cf heq
    by_cases hc : c ∈ dni
    · simp only [buildConsSeqLoop, if_pos hc] at heq
      obtain ⟨tail, hs, hlen, hidx⟩ := ih (c + 1) (seq ++ ['N']) confs s cf heq
      refine ⟨'N' :: tail, ?_, by simp [hlen], ?_⟩
      · rw [hs, List.append_assoc]
        rfl
      · intro i hi hmem
        match i with
        | 0 => rfl
        | j + 1 =>
          have hmem' : (c + 1 + j) ∈ dni := by
            have harith : c + (j + 1) = c + 1 + j := by omega
            rwa [harith] at hmem
          have hj : j < rest.length := by
            simp only [List.length_cons] at hi
            omega
          simpa using hidx j hj hmem'
    · simp only [buildConsSeqLoop, if_neg hc] at heq
      rcases hprops : consPropsLoop cdict [] 0 read_count ml with a | e
      · obtain ⟨cd, mc⟩ := a
        simp only [hprops] at heq
        rcases htb : consTryBlock cd mc read_count t with ob | e
        · obtain ⟨o, mp⟩ := ob
          simp only [htb] at heq
          obtain ⟨⟨b, rfl⟩, hp⟩ := consTryBlock_ok cd mc read_count t hrc o mp htb
          simp only at heq
          obtain ⟨tail, hs, hlen, hidx⟩ := ih (c + 1) (seq ++ [b]) (confs ++ [mp]) s cf heq
          refine ⟨b :: tail, ?_, by simp [hlen], ?_⟩
          · rw [hs, List.append_assoc]
            rfl
          · intro i hi hmem
            match i with
            | 0 => exact absurd (by simpa using hmem) hc
            | j + 1 =>
              have hmem' : (c + 1 + j) ∈ dni := by
                have harith : c + (j + 1) = c + 1 + j := by omega
                rwa [harith] at hmem
              have hj : j < rest.length := by
                simp only [List.length_cons] at hi
                omega
              simpa using hidx j hj hmem'
        · simp only [htb] at heq
          cases heq
      · simp only [hprops] at heq
        cases heq

theorem fetchLoop_length (prefix_len start : ℕ) (rev : Bool) (m : ℕ) :
    ∀ (lines : List (List Char)) (i : ℕ) (selected : List (List Char)),
      selected.length ≤ m →
      (fetchLoop lines i selected prefix_len start rev (some m)).length =
        min (selected.length + countSeqIdx i lines) (m + 1) := by
  intro lines
  induction lines with
  | nil =>
    intro i selected hle
    simp only [fetchLoop, countSeqIdx]
    omega
  | cons line rest ih =>
    intro i selected hle
    by_cases hi : i % 4 = 1
    · by_cases hm : m < (selected ++ [mcpWindow line prefix_len start rev]).length
      · simp only [fetchLoop, if_pos hi, if_pos hm]
        simp only [List.length_append, List.length_singleton] at hm ⊢
        simp only [countSeqIdx, if_pos hi]
        omega
      · simp only [fetchLoop, if_pos hi, if_neg hm]
        rw [ih (i + 1) _ (by simp at hm ⊢; omega)]
        simp only [List.length_append, List.length_singleton, countSeqIdx, if_pos hi]
        omega
    · have hm : ¬ m < selected.length := by omega
      simp only [fetchLoop, if_neg hi, if_neg hm]
      rw [ih (i + 1) selected hle]
      simp only [countSeqIdx, if_neg hi]
      omega

theorem dictTotal_foldl_add_one (l : List (List Char)) :
    ∀ acc : List (List Char × ℕ),
      dictTotal (l.foldl (fun a s => dictAdd a s 1) acc) = dictTotal acc + l.length := by
  induction l with
  | nil =>
    intro acc
    simp
  | cons s rest ih =>
    intro acc
    simp only [List.foldl_cons, ih, dictAdd_total, List.length_cons]
    omega

theorem counterOf_total (l : List (List Char)) : dictTotal (counterOf l) = l.length := by
  simpa [counterOf, dictTotal] using dictTotal_foldl_add_one l []

theorem sortByDesc_snd_sum {α : Type} (l : List (α × ℕ)) :
    ((sortByDesc Prod.snd l).map Prod.snd).sum = (l.map Prod.snd).sum :=
  ((sortByDesc_perm Prod.snd l).map Prod.snd).sum_eq

theorem mcpFold_total (mcp_len i : ℕ) (l : List (List Char × ℕ)) :
    ∀ acc : List (Char × ℕ),
      dictTotal (l.foldl (fun a p => if p.1.length < mcp_len then a
          else dictAdd a (p.1.getD i ' ') p.2) acc) =
        dictTotal acc + ((l.filter fun p => mcp_len ≤ p.1.length).map Prod.snd).sum := by
  induction l with
  | nil =>
    intro acc
    simp
  | cons p rest ih =>
    intro acc
    by_cases h : p.1.length < mcp_len
    · have h2 : ¬ (mcp_len ≤ p.1.length) := by omega
      simp only [List.foldl_cons, if_pos h, ih, List.filter_cons]
      simp [h2]
    · have h2 : mcp_len ≤ p.1.length := by omega
      simp only [List.foldl_cons, if_neg h, ih, dictAdd_total, List.filter_cons]
      simp [h2]
      omega

/-! ### Claim theorems -/

/-- C1, counterexample: on a conservation table with a retained base, read
count 0 and no override (so the denominator of the claim is zero), the
division fault arises in the proportion loop, outside the try block: it is
not caught, no symbol is emitted, and execution does not continue to the
second position — `build_cons_seq` aborts with the uncaught
`ZeroDivisionError`. -/
theorem build_cons_seq_zero_denominator_uncaught :
    build_cons_seq [[('A', 1)], [('T', 1)]] 0 (frac 4 5) [] 1 none =
      .error .zeroDivisionError := by decide

/-- C1, amended: when the total read count is zero and a nonzero override
denominator is supplied (so the per-base proportion loop itself never divides
by zero), the division fault of `max_count / read_count` is caught and treated
as confidence 0.0 for each non-gap position, execution continues through all
positions, but no consensus symbol is emitted for the non-gap positions: the
returned consensus holds only the `N` symbols of the forced-gap positions.
When instead the proportion loop divides by zero (read count zero without
override, or override zero, with a retained base) the `ZeroDivisionError` is
raised outside the try block and is uncaught. -/
theorem build_cons_seq_zero_read_count_caught
    (cons_list : List (List (Char × ℕ))) (t : ℚ) (dni : List ℕ) (c d : ℕ)
    (hd : d ≠ 0) :
    build_cons_seq cons_list 0 t dni c (some d) =
      .ok (List.replicate (countGaps cons_list dni c) 'N',
           List.replicate (cons_list.length - countGaps cons_list dni c) 0) := by
  have h := buildConsSeqLoop_zero_read_count t dni d hd cons_list c [] []
  simpa [build_cons_seq] using h

theorem build_cons_seq_zero_read_count_caught_witness :
    (3 : ℕ) ≠ 0 ∧
      build_cons_seq [[('A', 1)], [('T', 2)]] 0 (frac 4 5) [2] 1 (some 3) =
        .ok (List.replicate (countGaps [[('A', 1)], [('T', 2)]] [2] 1) 'N',
             List.replicate (([[('A', 1)], [('T', 2)]] : List (List (Char × ℕ))).length -
               countGaps [[('A', 1)], [('T', 2)]] [2] 1) 0) :=
  ⟨by decide,
   build_cons_seq_zero_read_count_caught [[('A', 1)], [('T', 2)]] (frac 4 5) [2] 1 3 (by decide)⟩

/-- C2, counterexample: with read count zero (and an empty position mapping,
so the caught division-fault path is taken) `build_cons_seq` returns a
consensus string of length 0 for a conservation table of 1 position: the
claimed length equality fails for this input. -/
theorem build_cons_seq_length_zero_read_count_cex :
    build_cons_seq [[]] 0 (frac 4 5) [] 1 none = .ok ([], [0]) ∧
      ([] : List Char).length ≠ ([[]] : List (List (Char × ℕ))).length :=
  ⟨by decide, by decide⟩

/-- C2, amended: whenever the read count is nonzero and `build_cons_seq`
returns normally, the consensus string has length equal to the number of
positions of the conservation table, and every forced-gap position holds the
symbol `N`. (With read count zero, positions that take the caught
division-fault path emit no symbol, so the consensus can be shorter.) -/
theorem build_cons_seq_length_nonzero_read_count
    (cons_list : List (List (Char × ℕ))) (read_count : ℕ) (t : ℚ)
    (dni : List ℕ) (c : ℕ) (ml : Option ℕ) (s : List Char) (cf : List ℚ)
    (hrc : read_count ≠ 0)
    (heq : build_cons_seq cons_list read_count t dni c ml = .ok (s, cf)) :
    s.length = cons_list.length ∧
      ∀ i, i < cons_list.length → (c + i) ∈ dni → s.getD i ' ' = 'N' := by
  obtain ⟨tail, hs, hlen, hidx⟩ :=
    buildConsSeqLoop_shape read_count t dni ml hrc cons_list c [] [] s cf
      (by simpa [build_cons_seq] using heq)
  have hst : s = tail := by simpa using hs
  subst hst
  exact ⟨hlen, hidx⟩

theorem build_cons_seq_length_nonzero_read_count_witness :
    (1 : ℕ) ≠ 0 ∧
      build_cons_seq [[('A', 1)], [('C', 1)]] 1 (frac 4 5) [2] 1 none =
        .ok (['A', 'N'], [1]) ∧
      ((['A', 'N'] : List Char).length = 2 ∧
        ∀ i, i < 2 → (1 + i) ∈ [2] → (['A', 'N'] : List Char).getD i ' ' = 'N') :=
  ⟨by decide, by decide,
   build_cons_seq_length_nonzero_read_count [[('A', 1)], [('C', 1)]] 1 (frac 4 5)
     [2] 1 none ['A', 'N'] [1] (by decide) (by decide)⟩

/-- C3, counterexample: with read count 2, override 4 and a position holding a
single A of count 1, the proportion of A is computed as 1 / 4 (the override)
but the reported confidence is 1 / 2 (the read count), which differs from the
claimed `max_count / denominator = 1 / 4`. -/
theorem build_cons_seq_confidence_ignores_override_cex :
    build_cons_seq [[('A', 1)]] 2 (frac 4 5) [] 1 (some 4) =
        .ok (['A'], [frac 1 2]) ∧
      frac 1 2 ≠ frac 1 4 :=
  ⟨by decide, by decide⟩

/-- C3, amended: at every non-gap position the per-base proportions are
computed as `count / denominator` with denominator the override when supplied
(else the read count), but the reported per-position confidence is always
`max_count / read_count`, even when an override is supplied: the two
computations use different denominators whenever the override differs from the
read count. -/
theorem build_cons_seq_denominators_split
    (count_dict : List (Char × ℕ)) (read_count : ℕ) (ml : Option ℕ) (t : ℚ)
    (cd : List (Char × ℚ)) (mc : ℕ) (o : Option Char) (p : ℚ)
    (hrc : read_count ≠ 0)
    (h1 : consPropsLoop count_dict [] 0 read_count ml = .ok (cd, mc))
    (h2 : consTryBlock cd mc read_count t = .ok (o, p)) :
    (∀ b q, (b, q) ∈ cd →
      ∃ cnt, (b, cnt) ∈ count_dict ∧ q = frac cnt (pyDenom read_count ml)) ∧
      p = frac mc read_count := by
  constructor
  · refine consPropsLoop_mem count_dict read_count ml count_dict [] 0
      (List.Subset.refl _) ?_ cd mc h1
    intro b q hq
    simp at hq
  · exact (consTryBlock_ok cd mc read_count t hrc o p h2).2

theorem build_cons_seq_denominators_split_witness :
    (2 : ℕ) ≠ 0 ∧
      consPropsLoop [('A', 1)] [] 0 2 (some 4) = .ok ([('A', frac 1 4)], 1) ∧
      consTryBlock [('A', frac 1 4)] 1 2 (frac 4 5) = .ok (some 'A', frac 1 2) ∧
      ((∀ b q, (b, q) ∈ [('A', frac 1 4)] →
        ∃ cnt, (b, cnt) ∈ [('A', 1)] ∧ q = frac cnt (pyDenom 2 (some 4))) ∧
        frac 1 2 = frac 1 2) :=
  ⟨by decide, by decide, by decide,
   build_cons_seq_denominators_split [('A', 1)] 2 (some 4) (frac 4 5)
     [('A', frac 1 4)] 1 (some 'A') (frac 1 2) (by decide) (by decide) (by decide)⟩

/-- C4 (confirmed): for every position, the candidate base set is obtained by
sorting the retained bases by proportion descending (the sorted list is
pairwise descending) and taking the smallest prefix, in that order, whose
accumulated proportion mass first reaches or exceeds the threshold
(inclusive); when no prefix meets the threshold all retained bases are
selected. -/
theorem build_cons_seq_selection_minimal_cover (cons_dict : List (Char × ℚ))
    (cons_threshold : ℚ) (ht : 0 < cons_threshold) :
    ((sortByDesc Prod.snd cons_dict).Pairwise fun a b => b.2 ≤ a.2) ∧
      ∃ k, k ≤ (sortByDesc Prod.snd cons_dict).length ∧
        consBasesOf cons_dict cons_threshold =
          ((sortByDesc Prod.snd cons_dict).map Prod.fst).take k ∧
        (∀ j, j < k →
          (((sortByDesc Prod.snd cons_dict).map Prod.snd).take j).sum < cons_threshold) ∧
        (cons_threshold ≤ (((sortByDesc Prod.snd cons_dict).map Prod.snd).take k).sum ∨
          k = (sortByDesc Prod.snd cons_dict).length) := by
  refine ⟨sortByDesc_pairwise Prod.snd cons_dict, ?_⟩
  obtain ⟨k, h1, h2, h3, h4⟩ :=
    greedyAccum_spec cons_threshold (sortByDesc Prod.snd cons_dict) 0 ht
  refine ⟨k, h1, by simpa [consBasesOf] using h2, ?_, by simpa using h4⟩
  intro j hj
  simpa using h3 j hj

theorem build_cons_seq_selection_minimal_cover_witness :
    0 < frac 4 5 ∧
      (((sortByDesc Prod.snd [('A', frac 9 10), ('G', frac 1 10)]).Pairwise
          fun a b => b.2 ≤ a.2) ∧
        ∃ k, k ≤ (sortByDesc Prod.snd [('A', frac 9 10), ('G', frac 1 10)]).length ∧
          consBasesOf [('A', frac 9 10), ('G', frac 1 10)] (frac 4 5) =
            ((sortByDesc Prod.snd [('A', frac 9 10), ('G', frac 1 10)]).map Prod.fst).take k ∧
          (∀ j, j < k →
            (((sortByDesc Prod.snd [('A', frac 9 10), ('G', frac 1 10)]).map
              Prod.snd).take j).sum < frac 4 5) ∧
          (frac 4 5 ≤ (((sortByDesc Prod.snd [('A', frac 9 10), ('G', frac 1 10)]).map
              Prod.snd).take k).sum ∨
            k = (sortByDesc Prod.snd [('A', frac 9 10), ('G', frac 1 10)]).length)) :=
  ⟨by decide,
   build_cons_seq_selection_minimal_cover [('A', frac 9 10), ('G', frac 1 10)]
     (frac 4 5) (by decide)⟩

/-- C5 (confirmed): with the position mapping, denominator and tie-break order
fixed, raising the threshold can only grow the selected candidate base set:
the selection at the lower threshold is a subset of the selection at the
higher one. -/
theorem build_cons_seq_selection_threshold_mono (cons_dict : List (Char × ℚ))
    (t₁ t₂ : ℚ) (h : t₁ ≤ t₂) :
    consBasesOf cons_dict t₁ ⊆ consBasesOf cons_dict t₂ := by
  intro b hb
  exact greedyAccum_mono t₁ t₂ h (sortByDesc Prod.snd cons_dict) 0 b hb

theorem build_cons_seq_selection_threshold_mono_witness :
    frac 2 5 ≤ frac 4 5 ∧
      consBasesOf [('A', frac 1 2), ('C', frac 3 10), ('G', frac 1 5)] (frac 2 5) ⊆
        consBasesOf [('A', frac 1 2), ('C', frac 3 10), ('G', frac 1 5)] (frac 4 5) :=
  ⟨by decide,
   build_cons_seq_selection_threshold_mono
     [('A', frac 1 2), ('C', frac 3 10), ('G', frac 1 5)] (frac 2 5) (frac 4 5)
     (by decide)⟩

/-- C6 (confirmed): the concrete scenario of the spec: the window frequency
table with AT counted 9 times and GT once, at window length 2, aggregates to
position counts A 9 and G 1, then T 10; running the resolver on that table
with read count 10 and threshold 0.8 yields the consensus AT with confidences
0.9 and 1.0. -/
theorem pipeline_concrete_scenario :
    build_mcp_cons_dict_list [(['A', 'T'], 9), (['G', 'T'], 1)] 2 =
        [[('A', 9), ('G', 1)], [('T', 10)]] ∧
      build_cons_seq [[('A', 9), ('G', 1)], [('T', 10)]] 10 (frac 4 5) [] 1 none =
        .ok (['A', 'T'], [frac 9 10, 1]) :=
  ⟨by decide, by decide⟩

/-- C7 (confirmed): with a record cap supplied, window extraction stops only
after the number of accumulated windows exceeds the cap, so the total number
of windows collected — the sum of the counts of the returned frequency table —
is the minimum of the number of sequence lines of the file and the cap plus
one. -/
theorem fetch_mcp_cap_total (lines : List (List Char)) (prefix_len start : ℕ)
    (rev : Bool) (m : ℕ) :
    ((fetch_mcp lines prefix_len start rev (some m)).map Prod.snd).sum =
      min (countSeqIdx 0 lines) (m + 1) := by
  unfold fetch_mcp
  rw [sortByDesc_snd_sum]
  have h1 : ((counterOf (fetchLoop lines 0 [] prefix_len start rev (some m))).map
      Prod.snd).sum = (fetchLoop lines 0 [] prefix_len start rev (some m)).length :=
    counterOf_total _
  rw [h1]
  simpa using fetchLoop_length prefix_len start rev m lines 0 [] (by simp)

/-- C8, counterexample: when the external line count is 10 (a digit string),
the fastq read count returned is 10 / 4 = 5 / 2, a non-integral rational
(Python true division `read_count /= 4` produces a float): the claimed
"returns a non-negative integer" fails on this digit-string input. -/
theorem get_read_count_fastq_nonintegral_cex :
    get_read_count ['1', '0'] ['f', 'a', 's', 't', 'q'] = .ok (frac 10 4) ∧
      (frac 10 4).den ≠ 1 :=
  ⟨by decide, by decide⟩

/-- C8, amended: for every input whose counting step yields a digit string,
the read-count operation returns a non-negative rational; for fastq input the
returned value is exactly the physical line count divided by 4, which is an
integer precisely when the line count is a multiple of 4 (always the case for
a well-formed 4-line-per-record file). -/
theorem get_read_count_fastq_value (stdout : List Char)
    (h : pyIsDigit (stripChars stdout) = true) :
    get_read_count stdout ['f', 'a', 's', 't', 'q'] =
        .ok (frac (digitsToNat (stripChars stdout)) 4) ∧
      0 ≤ frac (digitsToNat (stripChars stdout)) 4 ∧
      (4 ∣ digitsToNat (stripChars stdout) →
        (frac (digitsToNat (stripChars stdout)) 4).den = 1) := by
  refine ⟨?_, ?_, ?_⟩
  · simp [get_read_count, h]
  · rw [frac_eq_div]
    positivity
  · rintro ⟨k, hk⟩
    rw [hk, frac_eq_div]
    push_cast
    rw [mul_comm, mul_div_assoc]
    norm_num

theorem get_read_count_fastq_value_witness :
    pyIsDigit (stripChars ['1', '2']) = true ∧
      (get_read_count ['1', '2'] ['f', 'a', 's', 't', 'q'] =
          .ok (frac (digitsToNat (stripChars ['1', '2'])) 4) ∧
        0 ≤ frac (digitsToNat (stripChars ['1', '2'])) 4 ∧
        (4 ∣ digitsToNat (stripChars ['1', '2']) →
          (frac (digitsToNat (stripChars ['1', '2'])) 4).den = 1)) :=
  ⟨by decide, get_read_count_fastq_value ['1', '2'] (by decide)⟩

/-- C9, counterexample: a position covered only by N with read count 0 and a
nonzero override denominator: the denominator of the claim (the override, 3)
is nonzero and the mapping holds none of A, T, C, G, yet `build_cons_seq`
does not raise a lookup error — the division fault of
`max_count / read_count` is caught first and the position is skipped with
confidence 0.0. -/
theorem build_cons_seq_no_retained_bases_zero_rc_cex :
    pyDenom 0 (some 3) ≠ 0 ∧
      build_cons_seq [[('N', 5)]] 0 (frac 4 5) [] 1 (some 3) = .ok ([], [0]) :=
  ⟨by decide, by decide⟩

/-- C9, amended: for every non-gap position whose count mapping holds none of
A, T, C, G, when the total read count is nonzero (so the confidence division
succeeds and the try block reaches the symbol computation), the candidate set
is empty, the ambiguity-registry lookup is reached with the empty string as
key, and `build_cons_seq` aborts with the uncaught `KeyError` instead of
emitting any symbol for the position. -/
theorem build_cons_seq_no_retained_bases_key_error
    (count_dict : List (Char × ℕ)) (rest : List (List (Char × ℕ)))
    (read_count : ℕ) (t : ℚ) (ml : Option ℕ) (c : ℕ) (dni : List ℕ)
    (hnb : ∀ p ∈ count_dict, p.1 ∉ (['A', 'T', 'C', 'G'] : List Char))
    (hrc : read_count ≠ 0) (hc : c ∉ dni) :
    build_cons_seq (count_dict :: rest) read_count t dni c ml =
      .error (.keyError []) := by
  unfold build_cons_seq
  simp only [buildConsSeqLoop, if_neg hc,
    consPropsLoop_skip count_dict [] 0 read_count ml hnb,
    consTryBlock_empty_keyError 0 read_count t hrc]

theorem build_cons_seq_no_retained_bases_key_error_witness :
    (∀ p ∈ ([('N', 5)] : List (Char × ℕ)), p.1 ∉ (['A', 'T', 'C', 'G'] : List Char)) ∧
      (10 : ℕ) ≠ 0 ∧ (1 : ℕ) ∉ ([] : List ℕ) ∧
      build_cons_seq [[('N', 5)]] 10 (frac 4 5) [] 1 none = .error (.keyError []) :=
  ⟨by decide, by decide, by decide,
   build_cons_seq_no_retained_bases_key_error [('N', 5)] [] 10 (frac 4 5) none 1 []
     (by decide) (by decide) (by decide)⟩

/-- C10 (confirmed): every per-position count mapping produced by
`build_mcp_cons_dict_list` has the same total count: the sum of the table
counts of the windows whose length is at least the window length (each
qualifying window contributes its full count at every position, and windows
shorter than the window length contribute nowhere). -/
theorem build_mcp_cons_dict_list_position_totals
    (mcp_count_dict : List (List Char × ℕ)) (mcp_len : ℕ)
    (d : List (Char × ℕ)) (hd : d ∈ build_mcp_cons_dict_list mcp_count_dict mcp_len) :
    dictTotal d =
      ((mcp_count_dict.filter fun p => mcp_len ≤ p.1.length).map Prod.snd).sum := by
  unfold build_mcp_cons_dict_list at hd
  obtain ⟨i, hi, rfl⟩ := List.mem_map.1 hd
  simpa [dictTotal] using mcpFold_total mcp_len i mcp_count_dict []

theorem build_mcp_cons_dict_list_position_totals_witness :
    [('A', 9), ('G', 1)] ∈
        build_mcp_cons_dict_list [(['A', 'T'], 9), (['G', 'T'], 1), (['C'], 2)] 2 ∧
      dictTotal [('A', 9), ('G', 1)] =
        (([(['A', 'T'], 9), (['G', 'T'], 1), (['C'], 2)].filter
          fun p => 2 ≤ p.1.length).map Prod.snd).sum :=
  ⟨by decide,
   build_mcp_cons_dict_list_position_totals
     [(['A', 'T'], 9), (['G', 'T'], 1), (['C'], 2)] 2 [('A', 9), ('G', 1)]
     (by decide)⟩
